import Mathlib

/-!
Shallow embedding of the Blackjack round engine from src/main.cpp
(j-manito/Blackjack-Revamped), together with theorems settling the
frozen claims about its specification.

Conventions of the embedding:
* C++ `std::deque<Card>` (the undealt shoe, front = next card) is a
  `List Card` whose head is the front.
* C++ `std::stack<Card>` (the discard pile) is a `List Card` whose head
  is the top of the stack.
* C++ `int` totals that are provably non-negative (hand totals, bets,
  payouts) are `Nat`; chip balances, which the program can drive
  negative, are `Int`, as are the persisted statistics counters.
* `std::shuffle` with the process-local `std::mt19937` is abstracted as
  an explicit permutation parameter `sh : List Card -> List Card`;
  theorems that depend on it only assume it preserves length (true of
  every permutation).
* Interactive input and the RNG draws that pick bet sizes are
  abstracted as an oracle `betOf : Player -> Nat`.
* The write-only `Deck.seen_cards` bookkeeping set, the dialogue/UI
  state and the transaction log are not modelled: no claim (and no
  game-logic branch) reads them.
-/

namespace Blackjack

/-- A playing card: rank symbol (one of the 13 strings of `RankNames`)
and suit index 0..3 (Clubs, Diamonds, Hearts, Spades). -/
structure Card where
  rank : String
  suit : Nat
deriving DecidableEq, Repr

/-- The fixed rank order used by `build_new_deck` (src/main.cpp line 68). -/
def RankNames : List String :=
  ["2","3","4","5","6","7","8","9","10","J","Q","K","A"]

/-- The `RankValue` lookup map (src/main.cpp lines 69-72); `none` models a
failed `find`. -/
def rankValue : String → Option Nat
  | "2" => some 2
  | "3" => some 3
  | "4" => some 4
  | "5" => some 5
  | "6" => some 6
  | "7" => some 7
  | "8" => some 8
  | "9" => some 9
  | "10" => some 10
  | "J" => some 10
  | "Q" => some 10
  | "K" => some 10
  | "A" => some 11
  | _ => none

/-- Sum of rank values with every ace counted as 11; unknown ranks are
skipped, exactly as the `RankValue.find` guard does.  The C++ functions
`compute_hand_value` and `is_soft_hand` accumulate this total and the
ace count in one pass over the hand; the two accumulators never
interact, so they are modelled as two folds. -/
def rawTotal (hand : List Card) : Nat :=
  hand.foldl (fun t c => t + ((rankValue c.rank).getD 0)) 0

/-- Number of aces in the hand (`++aces` for each card with rank "A"). -/
def aceCount (hand : List Card) : Nat :=
  hand.countP (fun c => c.rank == "A")

/-- The `while (total > 21 && aces > 0) { total -= 10; --aces; }` loop of
`compute_hand_value` (src/main.cpp lines 102-105). -/
def adjustTotal : Nat → Nat → Nat
  | total, 0 => total
  | total, aces + 1 => if 21 < total then adjustTotal (total - 10) aces else total

/-- `compute_hand_value` (src/main.cpp lines 92-107). -/
def compute_hand_value (hand : List Card) : Nat :=
  adjustTotal (rawTotal hand) (aceCount hand)

/-- `is_blackjack` (src/main.cpp lines 108-110). -/
def is_blackjack (hand : List Card) : Bool :=
  hand.length == 2 && compute_hand_value hand == 21

/-- `is_soft_hand` (src/main.cpp lines 111-120): at least one ace and the
raw all-aces-as-11 total is at most 21.  Note that the raw total is used,
not the adjusted hand value. -/
def is_soft_hand (hand : List Card) : Bool :=
  decide (0 < aceCount hand) && decide (rawTotal hand ≤ 21)

/-- How many aces the adjustment loop of `compute_hand_value` re-counts
as 1 instead of 11 (the number of iterations of the while loop). -/
def reducedAces : Nat → Nat → Nat
  | _, 0 => 0
  | total, aces + 1 => if 21 < total then reducedAces (total - 10) aces + 1 else 0

/-- Number of aces still counted as 11 in the adjusted hand value. -/
def acesCountedAs11 (hand : List Card) : Nat :=
  aceCount hand - reducedAces (rawTotal hand) (aceCount hand)

/-- Modelled from the spec: "A hand is soft if it contains at least one
ace still counted as 11 under the current total", i.e. after the
ace-adjustment of the value computation at least one ace remains at 11.
This is the claim-side definition, to be compared with `is_soft_hand`. -/
def softSpec (hand : List Card) : Bool :=
  decide (0 < acesCountedAs11 hand)

/-- One pass of the `build_new_deck` loops for a single 52-card set:
suits 0..3 outer, ranks in `RankNames` order inner
(src/main.cpp lines 231-236). -/
def singleDeck : List Card :=
  (List.range 4).flatMap (fun s => RankNames.map (fun r => { rank := r, suit := s }))

/-- The full fresh shoe built by `build_new_deck`: `decks` copies of the
52-card set, in fixed order. -/
def freshShoe (decks : Nat) : List Card :=
  (List.range decks).flatMap (fun _ => singleDeck)

/-- `Deck` (src/main.cpp lines 216-271): the undealt `container` deque
(head = front), the `discard` stack (head = top) and the configured shoe
size.  The write-only `seen_cards` set is omitted. -/
structure Deck where
  container : List Card
  discard : List Card
  decks : Nat
deriving DecidableEq, Repr

/-- `Deck::build_new_deck` (src/main.cpp lines 228-238): replaces the
container with a fresh shoe; the discard pile is left untouched. -/
def build_new_deck (d : Deck) : Deck :=
  { d with container := freshShoe d.decks }

/-- `Deck::deal_one` (src/main.cpp lines 248-268), with `std::shuffle`
abstracted as the permutation `sh`.  If the container is empty and the
discard pile is non-empty, all but the top discard card are moved into
the container (head of `discard` is the top; popping the rest onto the
back of the empty container keeps their stack order) and the container
is shuffled; if both are empty a fresh shoe is built and shuffled.
The final `container.front(); container.pop_front()` is modelled as a
match; `none` stands for the C++ call of `front()` on an empty deque,
which is undefined behaviour (no card exists to return). -/
def deal_one (sh : List Card → List Card) (d : Deck) : Option (Card × Deck) :=
  let d' :=
    if d.container.isEmpty then
      match d.discard with
      | top :: rest => { d with container := sh rest, discard := [top] }
      | [] => { d with container := sh (freshShoe d.decks) }
    else d
  match d'.container with
  | [] => none
  | c :: cs => some (c, { d' with container := cs })

/-- `Deck::discard_card` (src/main.cpp line 269): push onto the discard
stack. -/
def discard_card (c : Card) (d : Deck) : Deck :=
  { d with discard := c :: d.discard }

/-- The pre-deal low-card reshuffle of `BlackjackGame::prepare_round`
(src/main.cpp line 597): if fewer than 15 cards remain undealt, the
container is replaced by a fresh shuffled shoe (`build_new_deck` then
`shuffle_deck`); the discard pile is kept as is. -/
def low_card_reshuffle (sh : List Card → List Card) (d : Deck) : Deck :=
  if d.container.length < 15 then { d with container := sh (freshShoe d.decks) } else d

/-- `Player` (src/main.cpp lines 125-164).  The dialogue deque is
omitted (display only).  Defaults mirror the C++ member initialisers. -/
structure Player where
  name : String
  is_human : Bool := false
  chips : Int := 100
  hand : List Card := []
  active : Bool := true
  stood : Bool := false
  busted : Bool := false
  wager_history : List Nat := []
  last_bet : Nat := 0
deriving DecidableEq, Repr

/-- `Player::hand_value`. -/
def Player.hand_value (p : Player) : Nat := compute_hand_value p.hand

/-- `Player::receive_card`: push_back onto the hand. -/
def receive_card (c : Card) (p : Player) : Player :=
  { p with hand := p.hand ++ [c] }

/-- The per-player effect of `BlackjackGame::collect_bets`
(src/main.cpp lines 603-664) on a player that does place a bet:
chips are debited, the wager is recorded, `last_bet` is updated. -/
def apply_bet (bet : Nat) (p : Player) : Player :=
  { p with chips := p.chips - bet,
           wager_history := p.wager_history ++ [bet],
           last_bet := bet }

/-- `BlackjackGame::collect_bets` (src/main.cpp lines 603-664): players
with `chips <= 0` are skipped (`continue`) before any bet is requested;
every other player stakes `betOf p` (the oracle abstracting the human
prompt and the personality/RNG bet selection), which is debited
immediately and recorded in the betting pot.  Returns the updated
roster and the pot entries in table order. -/
def collect_bets (betOf : Player → Nat) : List Player → List Player × List (String × Nat)
  | [] => ([], [])
  | p :: rest =>
    let r := collect_bets betOf rest
    if p.chips ≤ 0 then (p :: r.1, r.2)
    else (apply_bet (betOf p) p :: r.1, (p.name, betOf p) :: r.2)

/-- One pass of `BlackjackGame::initial_deal_animated`
(src/main.cpp lines 666-687): each player with `chips < 0` is skipped;
every other player receives one card from the deck.  `none` propagates
a failed deal. -/
def deal_pass (sh : List Card → List Card) : List Player → Deck → Option (List Player × Deck)
  | [], d => some ([], d)
  | p :: rest, d =>
    if p.chips < 0 then
      (deal_pass sh rest d).map (fun r => (p :: r.1, r.2))
    else
      match deal_one sh d with
      | none => none
      | some (c, d') =>
        (deal_pass sh rest d').map (fun r => (receive_card c p :: r.1, r.2))

/-- `BlackjackGame::initial_deal_animated`: two passes, one card per
eligible player per pass. -/
def initial_deal (sh : List Card → List Card) (ps : List Player) (d : Deck) :
    Option (List Player × Deck) :=
  match deal_pass sh ps d with
  | none => none
  | some (ps', d') => deal_pass sh ps' d'

/-- Which players the per-agent action loop of `play_round`
(src/main.cpp lines 855-863) actually gives a turn to: the loop
`continue`s on `chips < 0`, and only calls `human_turn`/`npc_turn` when
the player is neither stood nor busted. -/
def turn_takers (ps : List Player) : List Player :=
  ps.filter (fun p => !decide (p.chips < 0) && (!p.stood && !p.busted))

/-- One step of the `best_value` loop of `play_round`
(src/main.cpp lines 866-871): busted players are skipped, and a hand
value replaces the running best only when it is larger and at most
21. -/
def bv_step (best : Nat) (p : Player) : Nat :=
  if p.busted then best
  else if best < p.hand_value ∧ p.hand_value ≤ 21 then p.hand_value else best

/-- The `best_value` computation of `play_round`
(src/main.cpp lines 865-871): fold of `bv_step` over the roster, with
the accumulator starting at 0. -/
def best_value (ps : List Player) : Nat :=
  ps.foldl bv_step 0

/-- The winners list of `play_round` (src/main.cpp lines 872-876):
every non-busted player whose hand value equals `best_value`. -/
def winners (ps : List Player) : List Player :=
  ps.filter (fun p => !p.busted && p.hand_value == best_value ps)

/-- `BlackjackGame::pot_total` (src/main.cpp lines 803-807). -/
def pot_total (pot : List (String × Nat)) : Nat :=
  pot.foldl (fun t e => t + e.2) 0

/-- The `bet_by_player` map of `resolve_payouts_and_update_stats`
(src/main.cpp lines 814-815): sum of a player's pot entries, 0 when the
player has none (`operator[]` default). -/
def bet_by (pot : List (String × Nat)) (name : String) : Nat :=
  (pot.filter (fun e => e.1 == name)).foldl (fun t e => t + e.2) 0

/-- The per-winner payout of `resolve_payouts_and_update_stats`
(src/main.cpp lines 819-825): zero recorded stake gets an equal share of
the pot; a natural blackjack pays `bet + (bet * 3) / 2` (C++ integer
division); any other win pays `bet * 2`. -/
def payout_of (bet : Nat) (hand : List Card) (numWinners : Nat) (totalPot : Nat) : Nat :=
  if bet = 0 then totalPot / numWinners
  else if is_blackjack hand then bet + bet * 3 / 2
  else bet * 2

/-- Credit a payout to the named player (the C++ code adds to the chips
of the winner reference; rosters in the claims have distinct names). -/
def add_chips (name : String) (amt : Nat) (ps : List Player) : List Player :=
  ps.map (fun p => if p.name == name then { p with chips := p.chips + amt } else p)

/-- `BlackjackGame::resolve_payouts_and_update_stats`
(src/main.cpp lines 810-832): returns the roster unchanged when the pot
is empty or there are no winners; otherwise credits each winner with its
payout. -/
def resolve_payouts (pot : List (String × Nat)) (ws : List Player) (ps : List Player) :
    List Player :=
  if pot_total pot ≤ 0 then ps
  else if ws.isEmpty then ps
  else
    ws.foldl
      (fun acc w =>
        add_chips w.name (payout_of (bet_by pot w.name) w.hand ws.length (pot_total pot)) acc)
      ps

/-- `PlayerStats` (src/main.cpp lines 166-176).  Counters are C++ `int`;
the achievements set is kept as a list of character lists in ascending
`std::set` order. -/
structure PlayerStats where
  wins : Int := 0
  losses : Int := 0
  ties : Int := 0
  best_streak : Int := 0
  current_streak : Int := 0
  biggest_win : Int := 0
  total_games : Int := 0
  blackjacks : Int := 0
  achievements : List (List Char) := []
deriving DecidableEq, Repr

/-- The `persistent_stats` map, modelled as a total function with the
default-constructed `PlayerStats` for absent keys (the map is populated
for every roster name by `init_players`). -/
abbrev Stats : Type := String → PlayerStats

/-- Point update of one player's record (`persistent_stats[name]`). -/
def updStats (st : Stats) (name : String) (g : PlayerStats → PlayerStats) : Stats :=
  fun m => if m = name then g (st m) else st m

/-- The blackjack-detection loop of `play_round`
(src/main.cpp lines 842-849), restricted to its effect on
`persistent_stats`: every player with `chips >= 0` whose (post-deal)
hand is a natural blackjack gets `blackjacks` incremented.  (The loop
also marks such players as stood, which is why their hand is unchanged
at settlement.) -/
def detect_blackjacks : List Player → Stats → Stats
  | [], st => st
  | p :: rest, st =>
    detect_blackjacks rest
      (if ¬ p.chips < 0 ∧ is_blackjack p.hand then
        updStats st p.name (fun ps => { ps with blackjacks := ps.blackjacks + 1 })
      else st)

/-- The per-winner statistics update of `play_round`
(src/main.cpp lines 886-891): wins, current streak and total games are
incremented, best streak is raised to the current streak if exceeded,
and — for a winner whose hand is a natural blackjack — `blackjacks` is
incremented a further time. -/
def win_update (hand : List Card) (ps : PlayerStats) : PlayerStats :=
  let ps1 := { ps with wins := ps.wins + 1,
                       current_streak := ps.current_streak + 1,
                       total_games := ps.total_games + 1 }
  let ps2 :=
    if ps1.best_streak < ps1.current_streak then { ps1 with best_streak := ps1.current_streak }
    else ps1
  if is_blackjack hand then { ps2 with blackjacks := ps2.blackjacks + 1 } else ps2

/-- The loss update applied both in the everyone-busted branch
(src/main.cpp line 882) and to every non-winner
(src/main.cpp line 917): losses and total games up, streak reset. -/
def loss_update (ps : PlayerStats) : PlayerStats :=
  { ps with losses := ps.losses + 1, current_streak := 0, total_games := ps.total_games + 1 }

/-- Fold of `win_update` over the winners list. -/
def apply_wins : List Player → Stats → Stats
  | [], st => st
  | w :: rest, st => apply_wins rest (updStats st w.name (win_update w.hand))

/-- The everyone-busted branch (src/main.cpp lines 879-884): every
player with `chips >= 0` is recorded as a loss. -/
def apply_all_losses : List Player → Stats → Stats
  | [], st => st
  | p :: rest, st =>
    apply_all_losses rest (if ¬ p.chips < 0 then updStats st p.name loss_update else st)

/-- The non-winner loss loop (src/main.cpp lines 914-918): every player
whose name is not a winner name is recorded as a loss (no chip guard in
this branch). -/
def apply_losses_except (ws : List Player) : List Player → Stats → Stats
  | [], st => st
  | p :: rest, st =>
    apply_losses_except ws rest
      (if ws.any (fun w => w.name == p.name) then st else updStats st p.name loss_update)

/-- The statistics effect of the settlement block of `play_round`
(src/main.cpp lines 878-918) on the final roster. -/
def settle_stats (finalPs : List Player) (st : Stats) : Stats :=
  if (winners finalPs).isEmpty then apply_all_losses finalPs st
  else apply_losses_except (winners finalPs) finalPs (apply_wins (winners finalPs) st)

/-- The whole per-round statistics pipeline: blackjack detection on the
post-deal roster, then settlement on the final roster. -/
def round_stats (dealPs finalPs : List Player) (st : Stats) : Stats :=
  settle_stats finalPs (detect_blackjacks dealPs st)

/-- Strict lexicographic comparison of character lists: the byte-wise
`operator<` of `std::string` keys and `std::set` ordering. -/
def lexLt : List Char → List Char → Bool
  | [], [] => false
  | [], _ :: _ => true
  | _ :: _, [] => false
  | a :: as, b :: bs => if a < b then true else if b < a then false else lexLt as bs

/-- `std::set<std::string>::insert`: keep the list sorted by `lexLt`,
do nothing when the element is already present. -/
def insertAch (x : List Char) : List (List Char) → List (List Char)
  | [] => [x]
  | y :: ys => if lexLt x y then x :: y :: ys
    else if x = y then y :: ys
    else y :: insertAch x ys

/-- `BlackjackGame::unlock_achievement_for` (src/main.cpp lines
478-490), restricted to its effect on `persistent_stats`: inserts the
key into the player's achievement set if it is not already there. -/
def unlock_achievement (name : String) (key : List Char) (st : Stats) : Stats :=
  if key ∈ (st name).achievements then st
  else updStats st name (fun ps => { ps with achievements := insertAch key ps.achievements })

/-- `cautious_carl_should_hit` (src/main.cpp line 310). -/
def cautious_carl_should_hit (p : Player) : Bool := p.hand_value < 13

/-- `reckless_randy_should_hit` (src/main.cpp line 311). -/
def reckless_randy_should_hit (p : Player) : Bool := p.hand_value < 20

/-- `get_visible_highest_card_value` (src/main.cpp lines 315-326):
starting from 2, take the maximum rank value of the first card of every
other player's hand (players matching `self_name` are skipped, empty
hands are skipped, unknown ranks are skipped). -/
def get_visible_highest_card_value (players : List Player) (self_name : String) : Nat :=
  players.foldl
    (fun highest pl =>
      if pl.name == self_name then highest
      else
        match pl.hand with
        | [] => highest
        | c :: _ =>
          match rankValue c.rank with
          | some v => max highest v
          | none => highest)
    2

/-- `smart_samantha_should_hit` (src/main.cpp lines 327-347), the
Analytical policy: branch structure translated clause for clause,
including the unreachable trailing `return hv < 12`. -/
def smart_samantha_should_hit (p : Player) (all_players : List Player) : Bool :=
  let hv := p.hand_value
  let soft := is_soft_hand p.hand
  let up := get_visible_highest_card_value all_players p.name
  if soft then
    if hv ≤ 17 then true
    else if hv = 18 then (if 9 ≤ up then true else false)
    else false
  else
    if hv ≤ 11 then true
    else if 17 ≤ hv then false
    else if 12 ≤ hv ∧ hv ≤ 16 then (if 2 ≤ up ∧ up ≤ 6 then false else true)
    else decide (hv < 12)

/-- Modelled from the spec: the Analytical policy exactly as the claim
states it, with "soft" read as the claim's parenthetical definition (an
ace still counted as 11 under the current total, `softSpec`).  This is
the claim-side definition, to be compared with
`smart_samantha_should_hit`. -/
def samantha_spec_hit (p : Player) (all_players : List Player) : Bool :=
  let hv := p.hand_value
  let up := get_visible_highest_card_value all_players p.name
  if softSpec p.hand then
    decide (hv ≤ 17 ∨ (hv = 18 ∧ 9 ≤ up))
  else
    decide (hv ≤ 11 ∨ (12 ≤ hv ∧ hv ≤ 16 ∧ ¬ (2 ≤ up ∧ up ≤ 6)))

/-- The whitespace class of `operator>>`, `std::isspace` in the default
locale: space, tab, newline, vertical tab, form feed, carriage return. -/
def isWsChar (c : Char) : Bool :=
  c = ' ' || c = '\t' || c = '\n' || c = Char.ofNat 11 || c = Char.ofNat 12 || c = '\r'

/-- The decimal digit character for a value below 10. -/
def digitChar (n : Nat) : Char := Char.ofNat (48 + n)

/-- Decimal digits of a natural number, most significant first, with an
explicit fuel so that the recursion is structural (`natStr` supplies
enough fuel). -/
def natStrAux : Nat → Nat → List Char
  | 0, _ => []
  | fuel + 1, n => if n < 10 then [digitChar n] else natStrAux fuel (n / 10) ++ [digitChar (n % 10)]

/-- Decimal rendering of a natural number, as `operator<<` prints it. -/
def natStr (n : Nat) : List Char := natStrAux (n + 1) n

/-- Decimal rendering of a C++ `int` by `operator<<`: optional minus
sign followed by the digits of the magnitude. -/
def intStr (i : Int) : List Char :=
  if i < 0 then '-' :: natStr i.natAbs else natStr i.natAbs

/-- Accumulate decimal digits into a value (how extraction builds the
parsed integer from its digit characters). -/
def parseNat (cs : List Char) : Nat :=
  cs.foldl (fun a c => a * 10 + (c.toNat - 48)) 0

/-- `iss >> rawname` on a `std::string`: skip whitespace, then take the
maximal run of non-whitespace characters; fails when that run is
empty. -/
def readToken (cs : List Char) : Option (List Char × List Char) :=
  let cs1 := cs.dropWhile isWsChar
  let t := cs1.takeWhile (fun c => !isWsChar c)
  if t.isEmpty then none else some (t, cs1.dropWhile (fun c => !isWsChar c))

/-- `iss >> intField`: skip whitespace, accept an optional minus sign,
then the maximal run of decimal digits; fails when there are no
digits. -/
def readInt (cs : List Char) : Option (Int × List Char) :=
  match cs.dropWhile isWsChar with
  | [] => none
  | c :: rest =>
    if c = '-' then
      if (rest.takeWhile Char.isDigit).isEmpty then none
      else some (-(parseNat (rest.takeWhile Char.isDigit) : Int), rest.dropWhile Char.isDigit)
    else
      if ((c :: rest).takeWhile Char.isDigit).isEmpty then none
      else some ((parseNat ((c :: rest).takeWhile Char.isDigit) : Int),
        (c :: rest).dropWhile Char.isDigit)

/-- `BlackjackGame::escape_name` (src/main.cpp lines 470-472): spaces
become underscores. -/
def escapeName (name : List Char) : List Char :=
  name.map (fun c => if c = ' ' then '_' else c)

/-- `BlackjackGame::unescape_name` (src/main.cpp lines 473-475):
underscores become spaces. -/
def unescapeName (name : List Char) : List Char :=
  name.map (fun c => if c = '_' then ' ' else c)

/-- `join_achievements` (src/main.cpp lines 195-204): the set elements
in order, separated by commas. -/
def joinAch : List (List Char) → List Char
  | [] => []
  | [a] => a
  | a :: rest => a ++ ',' :: joinAch rest

/-- Split a character list at every comma (the `std::getline(iss,
token, ',')` loop), keeping empty pieces; `split_achievements` filters
them out. -/
def splitComma : List Char → List (List Char)
  | [] => [[]]
  | c :: cs =>
    if c = ',' then [] :: splitComma cs
    else
      match splitComma cs with
      | t :: ts => (c :: t) :: ts
      | [] => [[c]]

/-- `split_achievements` (src/main.cpp lines 205-211): comma-separated
tokens, empty tokens skipped, inserted into a fresh set in order. -/
def split_achievements (cs : List Char) : List (List Char) :=
  ((splitComma cs).filter (fun t => !t.isEmpty)).foldl (fun s t => insertAch t s) []

/-- One output line of `BlackjackGame::save_stats_to_file`
(src/main.cpp lines 458-466): escaped name, the eight counters in
order, then — only when the achievement set is non-empty — one more
space-separated field holding the comma-joined achievements. -/
def saveRecord (r : List Char × PlayerStats) : List Char :=
  let ps := r.2
  escapeName r.1 ++
    ' ' :: intStr ps.wins ++
    ' ' :: intStr ps.losses ++
    ' ' :: intStr ps.ties ++
    ' ' :: intStr ps.best_streak ++
    ' ' :: intStr ps.current_streak ++
    ' ' :: intStr ps.biggest_win ++
    ' ' :: intStr ps.total_games ++
    ' ' :: intStr ps.blackjacks ++
    (if ps.achievements.isEmpty then [] else ' ' :: joinAch ps.achievements)

/-- Parsing of one line by `BlackjackGame::load_stats_from_file`
(src/main.cpp lines 439-453): name token, eight integer fields (the
line is skipped if any extraction fails), then the rest of the line
with leading whitespace stripped, split into the achievement set when
non-empty; the stored key is the unescaped name. -/
def parseRecord (line : List Char) : Option (List Char × PlayerStats) := do
  let (nameTok, r0) ← readToken line
  let (w, r1) ← readInt r0
  let (l, r2) ← readInt r1
  let (t, r3) ← readInt r2
  let (bs, r4) ← readInt r3
  let (cs, r5) ← readInt r4
  let (bw, r6) ← readInt r5
  let (tg, r7) ← readInt r6
  let (bj, r8) ← readInt r7
  let restTrim := r8.dropWhile isWsChar
  let ach := if restTrim.isEmpty then [] else split_achievements restTrim
  some (unescapeName nameTok,
    { wins := w, losses := l, ties := t, best_streak := bs, current_streak := cs,
      biggest_win := bw, total_games := tg, blackjacks := bj, achievements := ach })

/-- `save_stats_to_file`: one line per record, in the (sorted) map
order in which `persistent_stats` holds them. -/
def saveStats (m : List (List Char × PlayerStats)) : List (List Char) :=
  m.map saveRecord

/-- The records recovered by `load_stats_from_file`: empty and
malformed lines are skipped (`parseRecord` returns `none` for them),
every parsed line yields one keyed record. -/
def loadRecords (lines : List (List Char)) : List (List Char × PlayerStats) :=
  lines.filterMap parseRecord

/-- Conditions under which a name survives the save/load round trip:
non-empty, no underscore (unescaping would corrupt it), and no
whitespace other than plain spaces (the token reader would split it). -/
def validName (n : List Char) : Prop :=
  n ≠ [] ∧ ∀ c ∈ n, c ≠ '_' ∧ (c = ' ' ∨ isWsChar c = false)

/-- Conditions under which one achievement identifier survives the
round trip: non-empty, comma-free and whitespace-free. -/
def validAch (a : List Char) : Prop :=
  a ≠ [] ∧ ∀ c ∈ a, c ≠ ',' ∧ isWsChar c = false

/-- A well-formed achievement set as `std::set` stores it: strictly
ascending, with every element round-trip safe. -/
def validAchSet (l : List (List Char)) : Prop :=
  l.Pairwise (fun x y => lexLt x y = true) ∧ ∀ a ∈ l, validAch a

/-- A record set whose every entry is round-trip safe. -/
def validRecords (m : List (List Char × PlayerStats)) : Prop :=
  ∀ r ∈ m, validName r.1 ∧ validAchSet r.2.achievements

/-- A few concrete cards used by counterexamples and witnesses. -/
def cardAS : Card := { rank := "A", suit := 3 }

def cardAH : Card := { rank := "A", suit := 2 }

def cardKS : Card := { rank := "K", suit := 3 }

def card2C : Card := { rank := "2", suit := 0 }

def card3C : Card := { rank := "3", suit := 0 }

/-- A pair of aces: raw total 22, adjusted value 12 with one ace still
counted as 11. -/
def handAA : List Card := [cardAS, cardAH]

/-- A natural blackjack hand. -/
def handBJ : List Card := [cardAS, cardKS]

/-- The Analytical NPC holding a pair of aces. -/
def pSamantha : Player := { name := "Smart Samantha", hand := handAA }

/-- An opponent whose visible first card is a 2. -/
def pYouUp2 : Player := { name := "You", is_human := true, hand := [card2C] }

/-- Table state for the Analytical-policy counterexample. -/
def tableC8 : List Player := [pSamantha, pYouUp2]

/-- A player with exactly zero chips at round start (for example after
betting every chip it had). -/
def pZero : Player := { name := "Zed", chips := 0 }

/-- A fresh unshuffled single-deck shoe. -/
def deckFresh1 : Deck := { container := freshShoe 1, discard := [], decks := 1 }

/-- The failing shoe state for `deal_one`: nothing undealt, exactly one
discarded card. -/
def deckOneDiscard : Deck := { container := [], discard := [cardAS], decks := 1 }

/-- A nearly exhausted shoe that triggers the pre-deal low-card
reshuffle. -/
def deckLow : Deck := { container := [card2C], discard := [], decks := 1 }

/-- A winner holding a natural blackjack (auto-stood at the deal). -/
def pBJWinner : Player := { name := "Wren", hand := handBJ, stood := true }

/-- A busted player. -/
def pBusted : Player :=
  { name := "Bart", hand := [cardKS, cardKS, card2C], busted := true }

/-- The all-zero statistics table. -/
def stats0 : Stats := fun _ => {}

end Blackjack

namespace Blackjack

theorem reducedAces_eq_zero_iff (t a : Nat) : reducedAces t a = 0 ↔ (a = 0 ∨ t ≤ 21) := by
  cases a with
  | zero => simp [reducedAces]
  | succ a =>
    simp only [reducedAces]
    split_ifs with h
    · simp only [false_or]
      exact iff_of_false not_false (by omega)
    · simp only [false_or]
      exact iff_of_true trivial (by omega)

/-- C1: `deal_one` is claimed never to fail whenever at least one card
exists across undealt, discard and held cards — including the case
where the discard pile holds exactly one card.  The code violates this:
with an empty container and a single discarded card, the fold-back
moves nothing into the container (everything but the top is moved, and
there is nothing but the top), the top card is pushed back as the new
discard top, and `container.front()` is then evaluated on an empty
deque — undefined behaviour, modelled as `none`.  This holds for every
shuffle (any length-preserving permutation). -/
theorem claim_C1 (sh : List Card → List Card) (hsh : ∀ l, (sh l).length = l.length) :
    deal_one sh deckOneDiscard = none := by
  have h0 : sh ([] : List Card) = [] := List.length_eq_zero.mp (hsh [])
  simp [deal_one, deckOneDiscard, h0]

theorem claim_C1_witness : deal_one (fun l => l) deckOneDiscard = none :=
  claim_C1 (fun l => l) (fun _ => rfl)

/-- C2 counterexample: a pair of aces.  After the ace adjustment one
ace is still counted as 11 (adjusted value 12), so the claimed
specification calls the hand soft, but `is_soft_hand` — which tests the
raw all-aces-as-11 total (22) against 21 — returns false. -/
theorem claim_C2_counterexample :
    is_soft_hand handAA = false ∧ softSpec handAA = true := by decide

/-- C2 as amended: `is_soft_hand` returns true iff the hand contains at
least one ace and every ace (not merely at least one) is still counted
as 11 by the value computation, i.e. the adjustment loop re-counted no
ace as 1. -/
theorem claim_C2 (hand : List Card) :
    is_soft_hand hand = true ↔
      0 < aceCount hand ∧ acesCountedAs11 hand = aceCount hand := by
  have hz := reducedAces_eq_zero_iff (rawTotal hand) (aceCount hand)
  simp only [is_soft_hand, acesCountedAs11, Bool.and_eq_true, decide_eq_true_eq]
  constructor
  · rintro ⟨h1, h2⟩
    have : reducedAces (rawTotal hand) (aceCount hand) = 0 := hz.mpr (Or.inr h2)
    omega
  · rintro ⟨h1, h2⟩
    refine ⟨h1, ?_⟩
    have h0 : reducedAces (rawTotal hand) (aceCount hand) = 0 := by omega
    rcases hz.mp h0 with h | h
    · omega
    · exact h

/-- C4 counterexample: an odd stake.  The claim says a natural
blackjack pays exactly stake times 2.5 for every positive stake, odd or
even; at stake 1 that would be payout 2.5 (twice the payout equals 5),
but the integer division in `player_bet + (player_bet * 3) / 2` pays
2. -/
theorem claim_C4_counterexample : ¬ (2 * payout_of 1 handBJ 1 2 = 5 * 1) := by decide

/-- C4 as amended: for every winner with positive recorded stake, a
natural blackjack pays stake plus three halves of the stake rounded
down (exactly stake times 2.5 when the stake is even — in particular
stake 20 pays 50 — and half a chip less when the stake is odd), and any
other win pays exactly stake times 2. -/
theorem claim_C4 (bet : Nat) (hand : List Card) (nW tp : Nat) (hb : 0 < bet) :
    (is_blackjack hand = true → 2 * payout_of bet hand nW tp = 5 * bet - bet % 2) ∧
      (is_blackjack hand = false → payout_of bet hand nW tp = 2 * bet) := by
  have hb' : bet ≠ 0 := Nat.pos_iff_ne_zero.mp hb
  constructor
  · intro hbj
    simp only [payout_of, hb', if_false, hbj, if_true]
    omega
  · intro hbj
    simp only [payout_of, hb', if_false, hbj, Bool.false_eq_true]
    omega

theorem claim_C4_witness : 2 * payout_of 20 handBJ 1 40 = 5 * 20 - 20 % 2 :=
  (claim_C4 20 handBJ 1 40 (by decide)).1 (by decide)

theorem forall2_trans {α : Type} {R S T : α → α → Prop}
    (hcomp : ∀ a b c, R a b → S b c → T a c) :
    ∀ {l1 l2 l3 : List α}, List.Forall₂ R l1 l2 → List.Forall₂ S l2 l3 →
      List.Forall₂ T l1 l3 := by
  intro l1 l2 l3 h1
  induction h1 generalizing l3 with
  | nil =>
    intro h2
    cases h2
    exact List.Forall₂.nil
  | cons hr hrest ih =>
    intro h2
    cases h2 with
    | cons hs hsrest => exact List.Forall₂.cons (hcomp _ _ _ hr hs) (ih hsrest)

theorem deal_pass_forall2 (sh : List Card → List Card) :
    ∀ (ps : List Player) (d : Deck) (ps' : List Player) (d' : Deck),
      deal_pass sh ps d = some (ps', d') →
      List.Forall₂ (fun p q => (p.chips < 0 → q = p) ∧
        (¬ p.chips < 0 → q.name = p.name ∧ q.chips = p.chips ∧
          q.hand.length = p.hand.length + 1)) ps ps' := by
  intro ps
  induction ps with
  | nil =>
    intro d ps' d' h
    simp only [deal_pass, Option.some.injEq, Prod.mk.injEq] at h
    rw [← h.1]
    exact List.Forall₂.nil
  | cons p rest ih =>
    intro d ps' d' h
    simp only [deal_pass] at h
    by_cases hc : p.chips < 0
    · rw [if_pos hc] at h
      rcases Option.map_eq_some'.mp h with ⟨⟨ps1, d1⟩, hr, hfr⟩
      injection hfr with h1 h2
      subst h1
      subst h2
      exact List.Forall₂.cons ⟨fun _ => rfl, fun hcc => absurd hc hcc⟩ (ih d ps1 d1 hr)
    · rw [if_neg hc] at h
      cases hdo : deal_one sh d with
      | none =>
        rw [hdo] at h
        exact absurd h (by simp)
      | some cd =>
        rw [hdo] at h
        obtain ⟨c, d2⟩ := cd
        rcases Option.map_eq_some'.mp h with ⟨⟨ps1, d1⟩, hr, hfr⟩
        injection hfr with h1 h2
        subst h1
        subst h2
        refine List.Forall₂.cons ⟨fun hcc => absurd hcc hc, fun _ => ?_⟩ (ih d2 ps1 d1 hr)
        refine ⟨rfl, rfl, ?_⟩
        simp [receive_card]

theorem initial_deal_effect (sh : List Card → List Card) (ps : List Player) (d : Deck)
    (ps' : List Player) (d' : Deck) (h : initial_deal sh ps d = some (ps', d')) :
    List.Forall₂ (fun p q => (p.chips < 0 → q = p) ∧
      (¬ p.chips < 0 → q.name = p.name ∧ q.chips = p.chips ∧
        q.hand.length = p.hand.length + 2)) ps ps' := by
  unfold initial_deal at h
  cases h1 : deal_pass sh ps d with
  | none =>
    rw [h1] at h
    exact absurd h (by simp)
  | some r =>
    rw [h1] at h
    obtain ⟨ps1, d1⟩ := r
    have f1 := deal_pass_forall2 sh ps d ps1 d1 h1
    have f2 := deal_pass_forall2 sh ps1 d1 ps' d' h
    refine forall2_trans ?_ f1 f2
    rintro a b c ⟨hab1, hab2⟩ ⟨hbc1, hbc2⟩
    constructor
    · intro hneg
      have hba := hab1 hneg
      have hbneg : b.chips < 0 := by rw [hba]; exact hneg
      rw [hbc1 hbneg, hba]
    · intro hpos
      obtain ⟨hn1, hc1, hl1⟩ := hab2 hpos
      have hbpos : ¬ b.chips < 0 := by rw [hc1]; exact hpos
      obtain ⟨hn2, hc2, hl2⟩ := hbc2 hbpos
      refine ⟨by rw [hn2, hn1], by rw [hc2, hc1], by omega⟩

theorem collect_bets_spec (betOf : Player → Nat) :
    ∀ ps : List Player,
      List.Forall₂
          (fun p q => (p.chips ≤ 0 → q = p) ∧ (¬ p.chips ≤ 0 → q = apply_bet (betOf p) p))
          ps (collect_bets betOf ps).1 ∧
        (collect_bets betOf ps).2 =
          ps.filterMap (fun p => if p.chips ≤ 0 then none else some (p.name, betOf p)) := by
  intro ps
  induction ps with
  | nil => exact ⟨List.Forall₂.nil, rfl⟩
  | cons p rest ih =>
    obtain ⟨ihf, ihp⟩ := ih
    by_cases hc : p.chips ≤ 0
    · have hstep : collect_bets betOf (p :: rest) =
          (p :: (collect_bets betOf rest).1, (collect_bets betOf rest).2) := by
        simp [collect_bets, hc]
      rw [hstep]
      constructor
      · exact List.Forall₂.cons ⟨fun _ => rfl, fun hcc => absurd hc hcc⟩ ihf
      · simp [hc, ihp]
    · have hstep : collect_bets betOf (p :: rest) =
          (apply_bet (betOf p) p :: (collect_bets betOf rest).1,
            (p.name, betOf p) :: (collect_bets betOf rest).2) := by
        simp [collect_bets, hc]
      rw [hstep]
      constructor
      · exact List.Forall₂.cons ⟨fun hcc => absurd hcc hc, fun _ => rfl⟩ ihf
      · simp [hc, ihp]

/-- C6 counterexample: a player with exactly zero chips (reachable by
betting every chip) is dealt cards by `initial_deal_animated`: its skip
guard is `chips < 0`, not `chips <= 0`.  Starting from a fresh
single-deck shoe, the zero-chip player ends the deal holding 2 cards,
not 0 as the claim requires. -/
theorem claim_C6_counterexample :
    (initial_deal (fun l => l) [pZero] deckFresh1).map
        (fun r => r.1.map (fun p => p.hand.length)) = some [2] ∧
      (2 : Nat) ≠ 0 := by
  constructor
  · rfl
  · decide

/-- C6 as amended: a player with strictly negative chips is skipped
entirely (no bet is collected, no card is dealt in either pass, no turn
is taken); a player with exactly zero chips is skipped only by the
betting phase (guard `chips <= 0`) — it still receives one card per
deal pass (guard `chips < 0`) and still takes a turn when neither stood
nor busted. -/
theorem claim_C6 (betOf : Player → Nat) (sh : List Card → List Card) (ps : List Player) :
    (List.Forall₂
        (fun p q => (p.chips ≤ 0 → q = p) ∧ (¬ p.chips ≤ 0 → q = apply_bet (betOf p) p))
        ps (collect_bets betOf ps).1 ∧
      (collect_bets betOf ps).2 =
        ps.filterMap (fun p => if p.chips ≤ 0 then none else some (p.name, betOf p))) ∧
    (∀ d ps' d', initial_deal sh ps d = some (ps', d') →
      List.Forall₂ (fun p q => (p.chips < 0 → q = p) ∧
        (¬ p.chips < 0 → q.name = p.name ∧ q.chips = p.chips ∧
          q.hand.length = p.hand.length + 2)) ps ps') ∧
    (∀ p ∈ ps, (p.chips < 0 → p ∉ turn_takers ps) ∧
      (¬ p.chips < 0 → p.stood = false → p.busted = false → p ∈ turn_takers ps)) := by
  refine ⟨collect_bets_spec betOf ps, ?_, ?_⟩
  · intro d ps' d' h
    exact initial_deal_effect sh ps d ps' d' h
  · intro p hp
    constructor
    · intro hneg hmem
      have hf := (List.mem_filter.mp hmem).2
      simp [hneg] at hf
    · intro hpos hst hbu
      exact List.mem_filter.mpr ⟨hp, by simp [hpos, hst, hbu]⟩

theorem claim_C6_witness : pZero ∈ turn_takers [pZero] :=
  (((claim_C6 (fun _ => 1) (fun l => l) [pZero]).2.2 pZero (by decide)).2
    (by decide) rfl rfl)

/-- C7 counterexample: the pre-deal low-card reshuffle of
`prepare_round` does not conserve the card count.  With one undealt
card, an empty discard pile and no held cards, the reshuffle throws the
undealt card away and installs a fresh 52-card shoe: 52 cards after,
1 before. -/
theorem claim_C7_counterexample :
    (low_card_reshuffle (fun l => l) deckLow).container.length +
        (low_card_reshuffle (fun l => l) deckLow).discard.length ≠
      deckLow.container.length + deckLow.discard.length := by decide

/-- C7 as amended: the shoe card count is conserved by `deal_one`
whenever the shoe is not completely empty (each successful deal moves
exactly one card from the shoe to the dealt-and-held cards) and by
`discard_card` (one held card moves onto the discard pile), and the
fold-back reshuffle inside `deal_one` retains exactly the top discard
card and moves the remaining discard cards into undealt; but the
pre-deal low-card reshuffle (and a `deal_one` from a fully empty shoe)
replaces the undealt cards with a fresh 52-per-deck set, so conservation
does not extend across those rebuilds. -/
theorem claim_C7 (sh : List Card → List Card) (hsh : ∀ l, (sh l).length = l.length) :
    (∀ d c d', (d.container ≠ [] ∨ d.discard ≠ []) → deal_one sh d = some (c, d') →
        d'.container.length + d'.discard.length + 1 =
          d.container.length + d.discard.length) ∧
    (∀ d x, (discard_card x d).container.length + (discard_card x d).discard.length =
        d.container.length + d.discard.length + 1) ∧
    (∀ d top rest, d.container = [] → d.discard = top :: rest → rest ≠ [] →
      ∃ c d', deal_one sh d = some (c, d') ∧ d'.discard = [top] ∧
        d'.container.length + 1 = rest.length) := by
  refine ⟨?_, ?_, ?_⟩
  · intro d c d' hne h
    cases hc : d.container with
    | cons x xs =>
      simp only [deal_one, hc, List.isEmpty_cons, Bool.false_eq_true, if_false,
        Option.some.injEq, Prod.mk.injEq] at h
      obtain ⟨hx, hd'⟩ := h
      rw [← hd']
      simp
      omega
    | nil =>
      cases hd : d.discard with
      | nil =>
        rcases hne with hne | hne
        · exact absurd hc hne
        · exact absurd hd hne
      | cons top rest =>
        simp only [deal_one, hc, hd, List.isEmpty_nil, if_true] at h
        cases hs : sh rest with
        | nil =>
          rw [hs] at h
          simp at h
        | cons y ys =>
          rw [hs] at h
          simp only [Option.some.injEq, Prod.mk.injEq] at h
          obtain ⟨hy, hd'⟩ := h
          have hlen : (sh rest).length = rest.length := hsh rest
          rw [hs] at hlen
          rw [← hd']
          simp at hlen ⊢
          omega
  · intro d x
    simp [discard_card]
    omega
  · intro d top rest hc hd hrest
    cases hs : sh rest with
    | nil =>
      have hlen : (sh rest).length = rest.length := hsh rest
      rw [hs] at hlen
      have : rest = [] := List.length_eq_zero.mp hlen.symm
      exact absurd this hrest
    | cons y ys =>
      refine ⟨y, { container := ys, discard := [top], decks := d.decks }, ?_, rfl, ?_⟩
      · simp only [deal_one, hc, hd, List.isEmpty_nil, if_true, hs]
      · have hlen : (sh rest).length = rest.length := hsh rest
        rw [hs] at hlen
        simp at hlen ⊢
        omega

theorem claim_C7_witness :
    ({ container := [cardKS], discard := [], decks := 1 } : Deck).container.length +
        ({ container := [cardKS], discard := [], decks := 1 } : Deck).discard.length + 1 =
      ({ container := [cardAS, cardKS], discard := [], decks := 1 } : Deck).container.length +
        ({ container := [cardAS, cardKS], discard := [], decks := 1 } : Deck).discard.length :=
  (claim_C7 (fun l => l) (fun _ => rfl)).1
    { container := [cardAS, cardKS], discard := [], decks := 1 } cardAS
    { container := [cardKS], discard := [], decks := 1 }
    (Or.inl (by decide)) rfl

/-- C8 counterexample: the Analytical policy on a pair of aces when the
highest visible opposing card is a 2.  Under the claim's reading of
"soft" (an ace still counted as 11 under the current total) the hand is
soft 12, so the claimed rule hits; the code classifies the hand via
`is_soft_hand` as hard 12 with the visible card in the bust range
2..6, and stands. -/
theorem claim_C8_counterexample :
    smart_samantha_should_hit pSamantha tableC8 = false ∧
      samantha_spec_hit pSamantha tableC8 = true := by decide

/-- C8 as amended: the Analytical policy decides exactly per the stated
rule once "soft" is read as the program's `is_soft_hand` test (at least
one ace and raw all-aces-as-11 total at most 21): soft hands hit iff
value is at most 17 or value is 18 with the highest visible opposing
card at least 9; hard hands hit iff value is at most 11, or value is in
12..16 and the highest visible opposing card is outside 2..6; hard 17
or more stands. -/
theorem claim_C8 (p : Player) (all_players : List Player) :
    smart_samantha_should_hit p all_players = true ↔
      (if is_soft_hand p.hand = true then
        compute_hand_value p.hand ≤ 17 ∨
          (compute_hand_value p.hand = 18 ∧
            9 ≤ get_visible_highest_card_value all_players p.name)
      else
        compute_hand_value p.hand ≤ 11 ∨
          (12 ≤ compute_hand_value p.hand ∧ compute_hand_value p.hand ≤ 16 ∧
            ¬ (2 ≤ get_visible_highest_card_value all_players p.name ∧
                get_visible_highest_card_value all_players p.name ≤ 6))) := by
  simp only [smart_samantha_should_hit, Player.hand_value]
  by_cases hs : is_soft_hand p.hand = true
  · simp only [hs, if_true]
    split_ifs <;> simp_all
  · simp only [eq_false_of_ne_true hs, if_true, Bool.false_eq_true, if_false]
    split_ifs <;> simp_all <;> omega

theorem bv_foldl_le (ps : List Player) :
    ∀ acc, acc ≤ 21 → ps.foldl bv_step acc ≤ 21 := by
  induction ps with
  | nil => intro acc h; simpa using h
  | cons p rest ih =>
    intro acc h
    simp only [List.foldl_cons]
    apply ih
    unfold bv_step
    split_ifs with h1 h2
    · exact h
    · exact h2.2
    · exact h

theorem bv_foldl_ge_acc (ps : List Player) :
    ∀ acc, acc ≤ ps.foldl bv_step acc := by
  induction ps with
  | nil => intro acc; simp
  | cons p rest ih =>
    intro acc
    simp only [List.foldl_cons]
    refine le_trans ?_ (ih (bv_step acc p))
    unfold bv_step
    split_ifs with h1 h2
    · exact le_rfl
    · exact le_of_lt h2.1
    · exact le_rfl

theorem bv_foldl_ge_mem (ps : List Player) :
    ∀ acc q, q ∈ ps → q.busted = false → q.hand_value ≤ 21 →
      q.hand_value ≤ ps.foldl bv_step acc := by
  induction ps with
  | nil => intro acc q hq; simp at hq
  | cons p rest ih =>
    intro acc q hq hb hle
    simp only [List.foldl_cons]
    rcases List.mem_cons.mp hq with rfl | hq
    · refine le_trans ?_ (bv_foldl_ge_acc rest (bv_step acc q))
      unfold bv_step
      rw [hb]
      simp only [Bool.false_eq_true, if_false]
      split_ifs with h2
      · exact le_rfl
      · omega
    · exact ih (bv_step acc p) q hq hb hle

theorem bv_foldl_cases (ps : List Player) :
    ∀ acc, ps.foldl bv_step acc = acc ∨
      ∃ q, q ∈ ps ∧ q.busted = false ∧ ps.foldl bv_step acc = q.hand_value := by
  induction ps with
  | nil => intro acc; simp
  | cons p rest ih =>
    intro acc
    simp only [List.foldl_cons]
    rcases ih (bv_step acc p) with h | ⟨q, hq, hb, hv⟩
    · rw [h]
      unfold bv_step
      split_ifs with h1 h2
      · exact Or.inl rfl
      · exact Or.inr ⟨p, List.mem_cons_self p rest, Bool.not_eq_true _ ▸ by
          simpa using h1, rfl⟩
      · exact Or.inl rfl
    · exact Or.inr ⟨q, List.mem_cons_of_mem p hq, hb, hv⟩

/-- C3: the winners list of `play_round` is exactly the set of
non-busted players whose hand value equals the maximum hand value not
exceeding 21 among all non-busted players (ties all appear, unranked);
and when every player busted, the winners list is empty and
`resolve_payouts_and_update_stats` leaves every chip balance untouched
(the pot is forfeited). -/
theorem claim_C3 (ps : List Player) (p : Player) :
    (p ∈ winners ps ↔
      p ∈ ps ∧ p.busted = false ∧ p.hand_value ≤ 21 ∧
        ∀ q ∈ ps, q.busted = false → q.hand_value ≤ 21 → q.hand_value ≤ p.hand_value) ∧
    ((∀ q ∈ ps, q.busted = true) →
      winners ps = [] ∧ ∀ pot, resolve_payouts pot (winners ps) ps = ps) := by
  constructor
  · constructor
    · intro hw
      have hmem := List.mem_filter.mp hw
      obtain ⟨hin, hpred⟩ := hmem
      have hb : p.busted = false := by
        rcases Bool.and_eq_true _ _ |>.mp hpred with ⟨h1, _⟩
        simpa using h1
      have hv : p.hand_value = best_value ps := by
        rcases Bool.and_eq_true _ _ |>.mp hpred with ⟨_, h2⟩
        simpa using h2
      refine ⟨hin, hb, ?_, ?_⟩
      · rw [hv]
        exact bv_foldl_le ps 0 (by omega)
      · intro q hq hqb hqle
        rw [hv]
        exact bv_foldl_ge_mem ps 0 q hq hqb hqle
    · rintro ⟨hin, hb, hle, hmax⟩
      have h1 : p.hand_value ≤ best_value ps := bv_foldl_ge_mem ps 0 p hin hb hle
      have h2 : best_value ps ≤ p.hand_value := by
        rcases bv_foldl_cases ps 0 with h | ⟨q, hq, hqb, hqv⟩
        · have h0 : best_value ps = 0 := h
          omega
        · have hbv : List.foldl bv_step 0 ps ≤ 21 := bv_foldl_le ps 0 (by omega)
          have hq21 : q.hand_value ≤ 21 := by omega
          have heq : best_value ps = q.hand_value := hqv
          rw [heq]
          exact hmax q hq hqb hq21
      apply List.mem_filter.mpr
      refine ⟨hin, ?_⟩
      rw [hb]
      simp only [Bool.not_false, Bool.true_and, beq_iff_eq]
      omega
  · intro hall
    have hw : winners ps = [] := by
      apply List.filter_eq_nil_iff.mpr
      intro q hq
      rw [hall q hq]
      simp
    refine ⟨hw, ?_⟩
    intro pot
    rw [hw]
    unfold resolve_payouts
    split_ifs <;> simp

theorem claim_C3_witness :
    (pBusted ∈ winners [pBusted] ↔
      pBusted ∈ [pBusted] ∧ pBusted.busted = false ∧ pBusted.hand_value ≤ 21 ∧
        ∀ q ∈ [pBusted], q.busted = false → q.hand_value ≤ 21 →
          q.hand_value ≤ pBusted.hand_value) ∧
    (winners [pBusted] = [] ∧
      ∀ pot, resolve_payouts pot (winners [pBusted]) [pBusted] = [pBusted]) :=
  ⟨(claim_C3 [pBusted] pBusted).1,
    (claim_C3 [pBusted] pBusted).2 (by decide)⟩

theorem updStats_same_point (st : Stats) (name : String) (g : PlayerStats → PlayerStats)
    (n : String) : (updStats st name g) n = if n = name then g (st n) else st n := rfl

theorem win_update_fields (hand : List Card) (ps : PlayerStats) :
    (win_update hand ps).wins = ps.wins + 1 ∧
      (win_update hand ps).losses = ps.losses ∧
      (win_update hand ps).ties = ps.ties ∧
      (win_update hand ps).blackjacks =
        ps.blackjacks + (if is_blackjack hand then 1 else 0) := by
  by_cases hbj : is_blackjack hand <;>
    by_cases hb : ps.best_streak < ps.current_streak + 1 <;>
      simp [win_update, hbj, hb]

theorem loss_update_fields (ps : PlayerStats) :
    (loss_update ps).wins = ps.wins ∧
      (loss_update ps).losses = ps.losses + 1 ∧
      (loss_update ps).ties = ps.ties ∧
      (loss_update ps).blackjacks = ps.blackjacks := by
  unfold loss_update
  simp

theorem detect_blackjacks_fields (ps : List Player) :
    ∀ st n,
      ((detect_blackjacks ps st) n).blackjacks =
          (st n).blackjacks +
            (ps.countP (fun p => !decide (p.chips < 0) && (is_blackjack p.hand && p.name == n))
              : Int) ∧
        ((detect_blackjacks ps st) n).wins = (st n).wins ∧
        ((detect_blackjacks ps st) n).losses = (st n).losses ∧
        ((detect_blackjacks ps st) n).ties = (st n).ties := by
  induction ps with
  | nil => intro st n; simp [detect_blackjacks]
  | cons p rest ih =>
    intro st n
    obtain ⟨hbj, hw, hl, ht⟩ :=
      ih (if ¬ p.chips < 0 ∧ is_blackjack p.hand then
            updStats st p.name (fun q => { q with blackjacks := q.blackjacks + 1 })
          else st) n
    simp only [detect_blackjacks, List.countP_cons]
    rw [hbj, hw, hl, ht]
    by_cases h1 : p.chips < 0
    · have hcond : ¬ (¬ p.chips < 0 ∧ is_blackjack p.hand = true) := fun hc => hc.1 h1
      rw [if_neg hcond]
      have hpred : (!decide (p.chips < 0) && (is_blackjack p.hand && p.name == n)) = false := by
        simp [h1]
      rw [hpred]
      simp
    · by_cases h2 : is_blackjack p.hand
      · have hcond : (¬ p.chips < 0 ∧ is_blackjack p.hand = true) := ⟨h1, h2⟩
        rw [if_pos hcond, updStats_same_point]
        by_cases hn : n = p.name
        · rw [if_pos hn]
          have hpred :
              (!decide (p.chips < 0) && (is_blackjack p.hand && p.name == n)) = true := by
            simp [h1, h2, hn]
          rw [hpred]
          refine ⟨?_, rfl, rfl, rfl⟩
          simp only [eq_self_iff_true, if_true]
          push_cast
          omega
        · rw [if_neg hn]
          have hne : p.name ≠ n := fun h => hn h.symm
          have hpred :
              (!decide (p.chips < 0) && (is_blackjack p.hand && p.name == n)) = false := by
            simp [hne]
          rw [hpred]
          simp
      · have hcond : ¬ (¬ p.chips < 0 ∧ is_blackjack p.hand = true) := fun hc => h2 hc.2
        rw [if_neg hcond]
        have hpred : (!decide (p.chips < 0) && (is_blackjack p.hand && p.name == n)) = false := by
          simp [h2]
        rw [hpred]
        simp

theorem apply_wins_fields (ws : List Player) :
    ∀ st n,
      ((apply_wins ws st) n).wins = (st n).wins + (ws.countP (fun w => w.name == n) : Int) ∧
        ((apply_wins ws st) n).losses = (st n).losses ∧
        ((apply_wins ws st) n).ties = (st n).ties ∧
        ((apply_wins ws st) n).blackjacks =
          (st n).blackjacks +
            (ws.countP (fun w => is_blackjack w.hand && w.name == n) : Int) := by
  induction ws with
  | nil => intro st n; simp [apply_wins]
  | cons w rest ih =>
    intro st n
    obtain ⟨hw, hl, ht, hbj⟩ := ih (updStats st w.name (win_update w.hand)) n
    simp only [apply_wins, List.countP_cons]
    rw [hw, hl, ht, hbj]
    by_cases hn : n = w.name
    · have hupd : updStats st w.name (win_update w.hand) n = win_update w.hand (st n) := by
        simp [updStats, hn]
      rw [hupd]
      obtain ⟨f1, f2, f3, f4⟩ := win_update_fields w.hand (st n)
      rw [f1, f2, f3, f4]
      have hbeq : (w.name == n) = true := by simp [hn]
      rw [hbeq]
      refine ⟨?_, rfl, rfl, ?_⟩
      · simp only [eq_self_iff_true, if_true]
        push_cast
        omega
      · by_cases hbj2 : is_blackjack w.hand
        · rw [hbj2]
          simp only [Bool.true_and, eq_self_iff_true, if_true]
          push_cast
          omega
        · rw [Bool.eq_false_iff.mpr hbj2]
          simp only [Bool.false_and, Bool.false_eq_true, if_false, if_true]
          push_cast
          omega
    · have hbeq : (w.name == n) = false := by
        simp only [beq_eq_false_iff_ne, ne_eq]
        exact fun h => hn h.symm
      simp [updStats, hn, hbeq]

theorem apply_all_losses_fields (ps : List Player) :
    ∀ st n,
      ((apply_all_losses ps st) n).losses =
          (st n).losses + (ps.countP (fun p => !decide (p.chips < 0) && p.name == n) : Int) ∧
        ((apply_all_losses ps st) n).wins = (st n).wins ∧
        ((apply_all_losses ps st) n).ties = (st n).ties ∧
        ((apply_all_losses ps st) n).blackjacks = (st n).blackjacks := by
  induction ps with
  | nil => intro st n; simp [apply_all_losses]
  | cons p rest ih =>
    intro st n
    obtain ⟨hl, hw, ht, hbj⟩ :=
      ih (if ¬ p.chips < 0 then updStats st p.name loss_update else st) n
    simp only [apply_all_losses, List.countP_cons]
    rw [hl, hw, ht, hbj]
    by_cases h1 : p.chips < 0
    · rw [if_neg (not_not_intro h1)]
      have hpred : (!decide (p.chips < 0) && p.name == n) = false := by simp [h1]
      rw [hpred]
      simp
    · rw [if_pos h1, updStats_same_point]
      by_cases hn : n = p.name
      · rw [if_pos hn]
        obtain ⟨f1, f2, f3, f4⟩ := loss_update_fields (st n)
        rw [f1, f2, f3, f4]
        have hpred : (!decide (p.chips < 0) && p.name == n) = true := by simp [h1, hn]
        rw [hpred]
        refine ⟨?_, rfl, rfl, rfl⟩
        simp only [eq_self_iff_true, if_true]
        push_cast
        omega
      · rw [if_neg hn]
        have hne : p.name ≠ n := fun h => hn h.symm
        have hpred : (!decide (p.chips < 0) && p.name == n) = false := by simp [hne]
        rw [hpred]
        simp

theorem apply_losses_except_fields (ws : List Player) (ps : List Player) :
    ∀ st n,
      ((apply_losses_except ws ps st) n).losses =
          (st n).losses +
            (ps.countP (fun p => !ws.any (fun w => w.name == p.name) && p.name == n) : Int) ∧
        ((apply_losses_except ws ps st) n).wins = (st n).wins ∧
        ((apply_losses_except ws ps st) n).ties = (st n).ties ∧
        ((apply_losses_except ws ps st) n).blackjacks = (st n).blackjacks := by
  induction ps with
  | nil => intro st n; simp [apply_losses_except]
  | cons p rest ih =>
    intro st n
    obtain ⟨hl, hw, ht, hbj⟩ :=
      ih (if ws.any (fun w => w.name == p.name) then st else updStats st p.name loss_update) n
    simp only [apply_losses_except, List.countP_cons]
    rw [hl, hw, ht, hbj]
    by_cases h1 : ws.any (fun w => w.name == p.name) = true
    · rw [if_pos h1]
      have hpred : (!ws.any (fun w => w.name == p.name) && p.name == n) = false := by simp [h1]
      rw [hpred]
      simp
    · have h1' : ws.any (fun w => w.name == p.name) = false := Bool.eq_false_iff.mpr h1
      rw [if_neg h1, updStats_same_point]
      by_cases hn : n = p.name
      · rw [if_pos hn]
        obtain ⟨f1, f2, f3, f4⟩ := loss_update_fields (st n)
        rw [f1, f2, f3, f4]
        have hpred : (!ws.any (fun w => w.name == p.name) && p.name == n) = true := by
          simp [h1', hn]
        rw [hpred]
        refine ⟨?_, rfl, rfl, rfl⟩
        simp only [eq_self_iff_true, if_true]
        push_cast
        omega
      · rw [if_neg hn]
        have hne : p.name ≠ n := fun h => hn h.symm
        have hpred : (!ws.any (fun w => w.name == p.name) && p.name == n) = false := by
          simp [hne]
        rw [hpred]
        simp

/-- C5 counterexample: one player holding a natural blackjack, with
non-negative chips, who wins the round.  The detection loop after the
deal increments the persistent blackjack counter once, and the winner
loop of the settlement increments it again, so the counter rises by 2
in one round, not by the claimed exactly 1. -/
theorem claim_C5_counterexample :
    ((round_stats [pBJWinner] [pBJWinner] stats0) "Wren").blackjacks = 2 ∧
      ((2 : Int) ≠ 1) := by
  constructor
  · decide
  · decide

/-- C5 as amended: over one round, a player's persistent blackjack
counter increases by one for holding a natural blackjack right after
the deal (with chips at least 0), plus one more if the player is in the
winners set with a natural-blackjack final hand.  A winning natural
blackjack is therefore counted twice, a losing one once, and a final
natural blackjack first assembled after the deal (via discards) is
counted only when it wins. -/
theorem claim_C5 (dealPs finalPs : List Player) (st : Stats) (n : String) :
    ((round_stats dealPs finalPs st) n).blackjacks =
      (st n).blackjacks +
        (dealPs.countP
          (fun p => !decide (p.chips < 0) && (is_blackjack p.hand && p.name == n)) : Int) +
        ((winners finalPs).countP (fun w => is_blackjack w.hand && w.name == n) : Int) := by
  unfold round_stats settle_stats
  obtain ⟨d1, d2, d3, d4⟩ := detect_blackjacks_fields dealPs st n
  by_cases hw : (winners finalPs).isEmpty
  · rw [if_pos hw]
    obtain ⟨a1, a2, a3, a4⟩ := apply_all_losses_fields finalPs (detect_blackjacks dealPs st) n
    rw [a4, d1, List.isEmpty_iff.mp hw]
    simp
  · rw [if_neg hw]
    obtain ⟨l1, l2, l3, l4⟩ :=
      apply_losses_except_fields (winners finalPs) finalPs
        (apply_wins (winners finalPs) (detect_blackjacks dealPs st)) n
    obtain ⟨w1, w2, w3, w4⟩ :=
      apply_wins_fields (winners finalPs) (detect_blackjacks dealPs st) n
    rw [l4, w4, d1]

/-- C10: the settlement phase of `play_round` never touches the ties
counter of any record: it adds one win per appearance in the winners
list, one loss per non-winner (with the everyone-busted branch guarded
by non-negative chips), and leaves `ties` exactly as it was; the
achievement unlocker also leaves `ties` unchanged. -/
theorem claim_C10 (dealPs finalPs : List Player) (st : Stats) (n : String) :
    ((round_stats dealPs finalPs st) n).ties = (st n).ties ∧
      ((round_stats dealPs finalPs st) n).wins =
        (st n).wins + ((winners finalPs).countP (fun w => w.name == n) : Int) ∧
      ((round_stats dealPs finalPs st) n).losses =
        (st n).losses +
          (if (winners finalPs).isEmpty then
            (finalPs.countP (fun p => !decide (p.chips < 0) && p.name == n) : Int)
          else
            (finalPs.countP
              (fun p => !(winners finalPs).any (fun w => w.name == p.name) && p.name == n)
              : Int)) ∧
      ∀ (m nm : String) (key : List Char) (stx : Stats),
        ((unlock_achievement nm key stx) m).ties = (stx m).ties := by
  refine ⟨?_, ?_, ?_, ?_⟩
  · unfold round_stats settle_stats
    obtain ⟨d1, d2, d3, d4⟩ := detect_blackjacks_fields dealPs st n
    by_cases hw : (winners finalPs).isEmpty
    · rw [if_pos hw]
      obtain ⟨a1, a2, a3, a4⟩ := apply_all_losses_fields finalPs (detect_blackjacks dealPs st) n
      rw [a3, d4]
    · rw [if_neg hw]
      obtain ⟨l1, l2, l3, l4⟩ :=
        apply_losses_except_fields (winners finalPs) finalPs
          (apply_wins (winners finalPs) (detect_blackjacks dealPs st)) n
      obtain ⟨w1, w2, w3, w4⟩ :=
        apply_wins_fields (winners finalPs) (detect_blackjacks dealPs st) n
      rw [l3, w3, d4]
  · unfold round_stats settle_stats
    obtain ⟨d1, d2, d3, d4⟩ := detect_blackjacks_fields dealPs st n
    by_cases hw : (winners finalPs).isEmpty
    · rw [if_pos hw]
      obtain ⟨a1, a2, a3, a4⟩ := apply_all_losses_fields finalPs (detect_blackjacks dealPs st) n
      rw [a2, d2, List.isEmpty_iff.mp hw]
      simp
    · rw [if_neg hw]
      obtain ⟨l1, l2, l3, l4⟩ :=
        apply_losses_except_fields (winners finalPs) finalPs
          (apply_wins (winners finalPs) (detect_blackjacks dealPs st)) n
      obtain ⟨w1, w2, w3, w4⟩ :=
        apply_wins_fields (winners finalPs) (detect_blackjacks dealPs st) n
      rw [l2, w1, d2]
  · unfold round_stats settle_stats
    obtain ⟨d1, d2, d3, d4⟩ := detect_blackjacks_fields dealPs st n
    by_cases hw : (winners finalPs).isEmpty
    · rw [if_pos hw, if_pos hw]
      obtain ⟨a1, a2, a3, a4⟩ := apply_all_losses_fields finalPs (detect_blackjacks dealPs st) n
      rw [a1, d3]
    · rw [if_neg hw, if_neg hw]
      obtain ⟨l1, l2, l3, l4⟩ :=
        apply_losses_except_fields (winners finalPs) finalPs
          (apply_wins (winners finalPs) (detect_blackjacks dealPs st)) n
      obtain ⟨w1, w2, w3, w4⟩ :=
        apply_wins_fields (winners finalPs) (detect_blackjacks dealPs st) n
      rw [l1, w2, d3]
  · intro m nm key stx
    unfold unlock_achievement
    by_cases hk : key ∈ (stx nm).achievements
    · rw [if_pos hk]
    · rw [if_neg hk, updStats_same_point]
      by_cases hm : m = nm
      · rw [if_pos hm]
      · rw [if_neg hm]

theorem claim_C8_witness :
    smart_samantha_should_hit pSamantha tableC8 = true ↔
      (if is_soft_hand pSamantha.hand = true then
        compute_hand_value pSamantha.hand ≤ 17 ∨
          (compute_hand_value pSamantha.hand = 18 ∧
            9 ≤ get_visible_highest_card_value tableC8 pSamantha.name)
      else
        compute_hand_value pSamantha.hand ≤ 11 ∨
          (12 ≤ compute_hand_value pSamantha.hand ∧ compute_hand_value pSamantha.hand ≤ 16 ∧
            ¬ (2 ≤ get_visible_highest_card_value tableC8 pSamantha.name ∧
                get_visible_highest_card_value tableC8 pSamantha.name ≤ 6))) :=
  claim_C8 pSamantha tableC8

theorem takeWhile_append_all {p : Char → Bool} :
    ∀ (l1 l2 : List Char), (∀ c ∈ l1, p c = true) →
      (l1 ++ l2).takeWhile p = l1 ++ l2.takeWhile p := by
  intro l1
  induction l1 with
  | nil => intro l2 _; simp
  | cons c cs ih =>
    intro l2 h
    have hc : p c = true := h c (List.mem_cons_self c cs)
    simp only [List.cons_append, List.takeWhile_cons, hc, if_true]
    rw [ih l2 (fun x hx => h x (List.mem_cons_of_mem c hx))]

theorem dropWhile_append_all {p : Char → Bool} :
    ∀ (l1 l2 : List Char), (∀ c ∈ l1, p c = true) →
      (l1 ++ l2).dropWhile p = l2.dropWhile p := by
  intro l1
  induction l1 with
  | nil => intro l2 _; simp
  | cons c cs ih =>
    intro l2 h
    have hc : p c = true := h c (List.mem_cons_self c cs)
    simp only [List.cons_append, List.dropWhile_cons, hc, if_true]
    exact ih l2 (fun x hx => h x (List.mem_cons_of_mem c hx))

theorem dropWhile_eq_self_of_takeWhile_nil {p : Char → Bool} (l : List Char)
    (h : l.takeWhile p = []) : l.dropWhile p = l := by
  cases l with
  | nil => rfl
  | cons c cs =>
    by_cases hc : p c = true
    · simp [List.takeWhile_cons, hc] at h
    · simp [List.dropWhile_cons, hc]

theorem digitChar_spec (n : Nat) (h : n < 10) :
    (digitChar n).isDigit = true ∧ isWsChar (digitChar n) = false ∧
      (digitChar n).toNat = 48 + n ∧ digitChar n ≠ '-' ∧ digitChar n ≠ ',' ∧
      digitChar n ≠ '_' := by
  interval_cases n <;> exact ⟨by decide, by decide, by decide, by decide, by decide, by decide⟩

theorem natStrAux_fuel : ∀ (f1 f2 n : Nat), n < f1 → n < f2 →
    natStrAux f1 n = natStrAux f2 n := by
  intro f1
  induction f1 with
  | zero => intro f2 n h1; omega
  | succ f ihf =>
    intro f2 n h1 h2
    cases f2 with
    | zero => omega
    | succ g =>
      simp only [natStrAux]
      by_cases hn : n < 10
      · simp [hn]
      · simp only [hn, if_false]
        rw [ihf g (n / 10) (by omega) (by omega)]

theorem natStr_all_digits_aux : ∀ (f n : Nat), n < f →
    ∀ c ∈ natStrAux f n, c.isDigit = true ∧ isWsChar c = false ∧ c ≠ '-' ∧ c ≠ ',' := by
  intro f
  induction f with
  | zero => intro n h; omega
  | succ g ih =>
    intro n h c hc
    simp only [natStrAux] at hc
    by_cases hn : n < 10
    · rw [if_pos hn] at hc
      rcases List.mem_singleton.mp hc with rfl
      obtain ⟨d1, d2, _, d4, d5, _⟩ := digitChar_spec n hn
      exact ⟨d1, d2, d4, d5⟩
    · rw [if_neg hn] at hc
      rcases List.mem_append.mp hc with hc | hc
      · exact ih (n / 10) (by omega) c hc
      · rcases List.mem_singleton.mp hc with rfl
        obtain ⟨d1, d2, _, d4, d5, _⟩ := digitChar_spec (n % 10) (by omega)
        exact ⟨d1, d2, d4, d5⟩

theorem natStr_all_digits (n : Nat) :
    ∀ c ∈ natStr n, c.isDigit = true ∧ isWsChar c = false ∧ c ≠ '-' ∧ c ≠ ',' :=
  natStr_all_digits_aux (n + 1) n (by omega)

theorem natStr_ne_nil_aux : ∀ (f n : Nat), n < f → natStrAux f n ≠ [] := by
  intro f
  induction f with
  | zero => intro n h; omega
  | succ g ih =>
    intro n h
    simp only [natStrAux]
    by_cases hn : n < 10
    · simp [hn]
    · simp [hn]

theorem natStr_ne_nil (n : Nat) : natStr n ≠ [] :=
  natStr_ne_nil_aux (n + 1) n (by omega)

theorem parseNat_aux : ∀ (f n : Nat), n < f → ∀ a : Nat,
    (natStrAux f n).foldl (fun acc c => acc * 10 + (c.toNat - 48)) a =
      a * 10 ^ (natStrAux f n).length + n := by
  intro f
  induction f with
  | zero => intro n h; omega
  | succ g ih =>
    intro n h a
    simp only [natStrAux]
    by_cases hn : n < 10
    · rw [if_pos hn]
      obtain ⟨_, _, d3, _, _, _⟩ := digitChar_spec n hn
      simp [d3]
    · rw [if_neg hn]
      rw [List.foldl_append]
      rw [ih (n / 10) (by omega) a]
      obtain ⟨_, _, d3, _, _, _⟩ := digitChar_spec (n % 10) (by omega)
      simp only [List.foldl_cons, List.foldl_nil, d3, List.length_append,
        List.length_singleton]
      have hp : (10 : Nat) ^ ((natStrAux g (n / 10)).length + 1) =
          10 ^ (natStrAux g (n / 10)).length * 10 := by
        rw [pow_succ]
      rw [hp]
      have hdm : n / 10 * 10 + n % 10 = n := by omega
      ring_nf
      omega

theorem parseNat_natStr (n : Nat) : parseNat (natStr n) = n := by
  unfold parseNat natStr
  rw [parseNat_aux (n + 1) n (by omega) 0]
  simp

theorem readToken_spec (t rest : List Char) (ht : t ≠ [])
    (hall : ∀ c ∈ t, isWsChar c = false)
    (hrest : rest.takeWhile (fun c => !isWsChar c) = []) :
    readToken (t ++ rest) = some (t, rest) := by
  obtain ⟨c0, t', rfl⟩ := List.exists_cons_of_ne_nil ht
  have hc0 : isWsChar c0 = false := hall c0 (List.mem_cons_self _ _)
  have hnot : ∀ c ∈ c0 :: t', (fun c => !isWsChar c) c = true := by
    intro c hc
    simp [hall c hc]
  unfold readToken
  have h1 : ((c0 :: t') ++ rest).dropWhile isWsChar = (c0 :: t') ++ rest := by
    simp [List.dropWhile_cons, hc0]
  rw [h1]
  have h2 : ((c0 :: t') ++ rest).takeWhile (fun c => !isWsChar c) = c0 :: t' := by
    rw [takeWhile_append_all (c0 :: t') rest hnot, hrest, List.append_nil]
  have h3 : ((c0 :: t') ++ rest).dropWhile (fun c => !isWsChar c) = rest := by
    rw [dropWhile_append_all (c0 :: t') rest hnot]
    exact dropWhile_eq_self_of_takeWhile_nil rest hrest
  simp only [h2, h3]
  simp

theorem readInt_spec (i : Int) (rest : List Char)
    (hrest : rest.takeWhile Char.isDigit = []) :
    readInt (' ' :: (intStr i ++ rest)) = some (i, rest) := by
  have hdig : ∀ c ∈ natStr i.natAbs, Char.isDigit c = true := by
    intro c hc
    exact (natStr_all_digits i.natAbs c hc).1
  have htake : (natStr i.natAbs ++ rest).takeWhile Char.isDigit = natStr i.natAbs := by
    rw [takeWhile_append_all _ rest hdig, hrest, List.append_nil]
  have hdrop : (natStr i.natAbs ++ rest).dropWhile Char.isDigit = rest := by
    rw [dropWhile_append_all _ rest hdig]
    exact dropWhile_eq_self_of_takeWhile_nil rest hrest
  have hne : (natStr i.natAbs).isEmpty = false := by
    rw [List.isEmpty_eq_false_iff_exists_mem]
    obtain ⟨c0, t', heq⟩ := List.exists_cons_of_ne_nil (natStr_ne_nil i.natAbs)
    exact ⟨c0, by rw [heq]; exact List.mem_cons_self _ _⟩
  have hws_sp : isWsChar ' ' = true := by decide
  have hws_da : isWsChar '-' = false := by decide
  by_cases hi : i < 0
  · have hform : intStr i = '-' :: natStr i.natAbs := by
      unfold intStr
      rw [if_pos hi]
    have hval : -(parseNat (natStr i.natAbs) : Int) = i := by
      rw [parseNat_natStr]
      omega
    unfold readInt
    rw [hform]
    have h1 : (' ' :: (('-' :: natStr i.natAbs) ++ rest)).dropWhile isWsChar =
        '-' :: (natStr i.natAbs ++ rest) := by
      simp [List.dropWhile_cons, hws_sp, hws_da]
    rw [h1]
    simp [htake, hdrop, hne, hval]
  · have hform : intStr i = natStr i.natAbs := by
      unfold intStr
      rw [if_neg hi]
    have hval : (parseNat (natStr i.natAbs) : Int) = i := by
      rw [parseNat_natStr]
      omega
    obtain ⟨c0, t', heq⟩ := List.exists_cons_of_ne_nil (natStr_ne_nil i.natAbs)
    have hc0w : isWsChar c0 = false := by
      have := natStr_all_digits i.natAbs c0 (by rw [heq]; exact List.mem_cons_self _ _)
      exact this.2.1
    have hc0m : c0 ≠ '-' := by
      have := natStr_all_digits i.natAbs c0 (by rw [heq]; exact List.mem_cons_self _ _)
      exact this.2.2.1
    unfold readInt
    rw [hform]
    have h1 : (' ' :: (natStr i.natAbs ++ rest)).dropWhile isWsChar =
        c0 :: (t' ++ rest) := by
      rw [heq]
      simp [List.dropWhile_cons, hws_sp, hc0w]
    rw [h1]
    have hback : c0 :: (t' ++ rest) = natStr i.natAbs ++ rest := by
      rw [heq]
      rfl
    simp only [if_neg hc0m, hback, htake, hdrop, hne, Bool.false_eq_true, if_false, hval]

theorem takeWhile_cons_false {p : Char → Bool} (c : Char) (cs : List Char)
    (h : p c = false) : (c :: cs).takeWhile p = [] := by
  simp [List.takeWhile_cons, h]

theorem dropWhile_cons_false {p : Char → Bool} (c : Char) (cs : List Char)
    (h : p c = false) : (c :: cs).dropWhile p = c :: cs := by
  simp [List.dropWhile_cons, h]

theorem unescape_escape (n : List Char) (h : ∀ c ∈ n, c ≠ '_') :
    unescapeName (escapeName n) = n := by
  induction n with
  | nil => rfl
  | cons c cs ih =>
    have hcne : c ≠ '_' := h c (List.mem_cons_self _ _)
    have ihh := ih (fun x hx => h x (List.mem_cons_of_mem _ hx))
    simp only [escapeName, unescapeName, List.map_cons] at ihh ⊢
    by_cases hc : c = ' '
    · subst hc
      simp only [if_pos rfl, List.cons.injEq]
      exact ⟨by decide, ihh⟩
    · simp only [if_neg hc, List.cons.injEq]
      exact ⟨by simp [hcne], ihh⟩

theorem escapeName_ne_nil (n : List Char) (h : n ≠ []) : escapeName n ≠ [] := by
  cases n with
  | nil => exact absurd rfl h
  | cons c cs => simp [escapeName]

theorem escapeName_not_ws (n : List Char) (h : ∀ c ∈ n, c = ' ' ∨ isWsChar c = false) :
    ∀ c ∈ escapeName n, isWsChar c = false := by
  intro c hc
  rcases List.mem_map.mp hc with ⟨x, hx, hxc⟩
  rcases h x hx with hsp | hws
  · rw [← hxc, hsp]
    decide
  · by_cases hxsp : x = ' '
    · rw [← hxc, if_pos hxsp]
      decide
    · rw [← hxc, if_neg hxsp]
      exact hws

theorem lexLt_irrefl : ∀ l : List Char, lexLt l l = false := by
  intro l
  induction l with
  | nil => rfl
  | cons c cs ih =>
    simp only [lexLt, lt_irrefl, if_false]
    exact ih

theorem lexLt_asymm : ∀ a b : List Char, lexLt a b = true → lexLt b a = false := by
  intro a
  induction a with
  | nil =>
    intro b hb
    cases b with
    | nil => exact absurd hb (by simp [lexLt])
    | cons d ds => rfl
  | cons c cs ih =>
    intro b hb
    cases b with
    | nil => exact absurd hb (by simp [lexLt])
    | cons d ds =>
      simp only [lexLt] at hb ⊢
      by_cases hcd : c < d
      · rw [if_neg (lt_asymm hcd), if_pos hcd]
      · rw [if_neg hcd] at hb
        by_cases hdc : d < c
        · rw [if_pos hdc] at hb
          exact absurd hb (by simp)
        · rw [if_neg hdc] at hb
          rw [if_neg hdc, if_neg hcd]
          exact ih ds hb

theorem insertAch_append (b : List Char) :
    ∀ acc : List (List Char), (∀ a ∈ acc, lexLt a b = true) →
      insertAch b acc = acc ++ [b] := by
  intro acc
  induction acc with
  | nil => intro _; rfl
  | cons y ys ih =>
    intro h
    have hy : lexLt y b = true := h y (List.mem_cons_self _ _)
    have hby : lexLt b y = false := lexLt_asymm y b hy
    have hne : b ≠ y := by
      intro hbe
      rw [hbe] at hy
      rw [lexLt_irrefl y] at hy
      exact absurd hy (by simp)
    simp only [insertAch, hby, Bool.false_eq_true, if_false, if_neg hne, List.cons_append,
      List.cons.injEq, true_and]
    exact ih (fun a ha => h a (List.mem_cons_of_mem _ ha))

theorem foldl_insertAch :
    ∀ (l acc : List (List Char)),
      (∀ a ∈ acc, ∀ b ∈ l, lexLt a b = true) →
      l.Pairwise (fun x y => lexLt x y = true) →
      l.foldl (fun s t => insertAch t s) acc = acc ++ l := by
  intro l
  induction l with
  | nil => intro acc _ _; simp
  | cons b ls ih =>
    intro acc hrel hpw
    simp only [List.foldl_cons]
    rw [insertAch_append b acc (fun a ha => hrel a ha b (List.mem_cons_self _ _))]
    rw [ih (acc ++ [b]) ?_ (List.pairwise_cons.mp hpw).2]
    · rw [List.append_assoc]
      rfl
    · intro a ha c hc
      rcases List.mem_append.mp ha with ha | ha
      · exact hrel a ha c (List.mem_cons_of_mem _ hc)
      · rcases List.mem_singleton.mp ha with rfl
        exact (List.pairwise_cons.mp hpw).1 c hc

theorem splitComma_no_comma : ∀ t : List Char, (∀ c ∈ t, c ≠ ',') → splitComma t = [t] := by
  intro t
  induction t with
  | nil => intro _; rfl
  | cons c cs ih =>
    intro h
    have hc : c ≠ ',' := h c (List.mem_cons_self _ _)
    simp only [splitComma, if_neg hc]
    rw [ih (fun x hx => h x (List.mem_cons_of_mem _ hx))]

theorem splitComma_append_comma :
    ∀ (t r : List Char), (∀ c ∈ t, c ≠ ',') →
      splitComma (t ++ ',' :: r) = t :: splitComma r := by
  intro t
  induction t with
  | nil => intro r _; simp [splitComma]
  | cons c cs ih =>
    intro r h
    have hc : c ≠ ',' := h c (List.mem_cons_self _ _)
    simp only [List.cons_append, splitComma, if_neg hc]
    rw [show cs.append (',' :: r) = cs ++ ',' :: r from rfl]
    rw [ih r (fun x hx => h x (List.mem_cons_of_mem _ hx))]

theorem splitComma_joinAch :
    ∀ l : List (List Char), l ≠ [] → (∀ a ∈ l, ∀ c ∈ a, c ≠ ',') →
      splitComma (joinAch l) = l := by
  intro l
  induction l with
  | nil => intro h _; exact absurd rfl h
  | cons a ls ih =>
    intro _ h
    cases ls with
    | nil =>
      show splitComma (joinAch [a]) = [a]
      rw [show joinAch [a] = a from rfl]
      exact splitComma_no_comma a (h a (List.mem_cons_self _ _))
    | cons b ls' =>
      show splitComma (a ++ ',' :: joinAch (b :: ls')) = a :: b :: ls'
      rw [splitComma_append_comma a _ (h a (List.mem_cons_self _ _))]
      rw [ih (by simp) (fun x hx c hc => h x (List.mem_cons_of_mem _ hx) c hc)]

theorem joinAch_cons_head :
    ∀ (c0 : Char) (a' : List Char) (ls : List (List Char)),
      ∃ tail, joinAch ((c0 :: a') :: ls) = c0 :: tail := by
  intro c0 a' ls
  cases ls with
  | nil => exact ⟨a', rfl⟩
  | cons b ls' => exact ⟨a' ++ ',' :: joinAch (b :: ls'), rfl⟩


theorem split_achievements_joinAch (l : List (List Char)) (hne : l ≠ [])
    (hv : validAchSet l) : split_achievements (joinAch l) = l := by
  obtain ⟨hpw, hval⟩ := hv
  unfold split_achievements
  rw [splitComma_joinAch l hne (fun a ha c hc => ((hval a ha).2 c hc).1)]
  have hfilter : l.filter (fun t => !t.isEmpty) = l := by
    apply List.filter_eq_self.mpr
    intro a ha
    have hane := (hval a ha).1
    cases a with
    | nil => exact absurd rfl hane
    | cons c cs => simp
  rw [hfilter]
  exact foldl_insertAch l [] (by simp) hpw

theorem ws_head_takeWhile_digit (x : List Char) :
    (' ' :: x).takeWhile Char.isDigit = [] :=
  takeWhile_cons_false _ _ (by decide)

theorem ws_head_takeWhile_tok (x : List Char) :
    (' ' :: x).takeWhile (fun c => !isWsChar c) = [] :=
  takeWhile_cons_false _ _ (by decide)

theorem parseRecord_saveRecord (name : List Char) (ps : PlayerStats)
    (hn : validName name) (ha : validAchSet ps.achievements) :
    parseRecord (saveRecord (name, ps)) = some (name, ps) := by
  obtain ⟨hn1, hn2⟩ := hn
  have hesc_ne := escapeName_ne_nil name hn1
  have hesc_ws := escapeName_not_ws name (fun c hc => (hn2 c hc).2)
  have hunesc := unescape_escape name (fun c hc => (hn2 c hc).1)
  by_cases hachE : ps.achievements.isEmpty = true
  · have hach_nil : ps.achievements = [] := by
      cases hach : ps.achievements with
      | nil => rfl
      | cons a as => rw [hach] at hachE; simp at hachE
    have hline : saveRecord (name, ps) =
        escapeName name ++ (' ' :: (intStr ps.wins ++ ' ' :: (intStr ps.losses ++ ' ' :: (intStr ps.ties ++ ' ' :: (intStr ps.best_streak ++ ' ' :: (intStr ps.current_streak ++ ' ' :: (intStr ps.biggest_win ++ ' ' :: (intStr ps.total_games ++ ' ' :: (intStr ps.blackjacks ++ ([] : List Char)))))))))) := by
      simp only [saveRecord, hachE, if_true]
      simp [List.append_assoc]
    have h0 := readToken_spec (escapeName name) (' ' :: (intStr ps.wins ++ ' ' :: (intStr ps.losses ++ ' ' :: (intStr ps.ties ++ ' ' :: (intStr ps.best_streak ++ ' ' :: (intStr ps.current_streak ++ ' ' :: (intStr ps.biggest_win ++ ' ' :: (intStr ps.total_games ++ ' ' :: (intStr ps.blackjacks ++ ([] : List Char)))))))))) hesc_ne hesc_ws
      (ws_head_takeWhile_tok _)
    have h1 := readInt_spec ps.wins (' ' :: (intStr ps.losses ++ ' ' :: (intStr ps.ties ++ ' ' :: (intStr ps.best_streak ++ ' ' :: (intStr ps.current_streak ++ ' ' :: (intStr ps.biggest_win ++ ' ' :: (intStr ps.total_games ++ ' ' :: (intStr ps.blackjacks ++ ([] : List Char))))))))) (ws_head_takeWhile_digit _)
    have h2 := readInt_spec ps.losses (' ' :: (intStr ps.ties ++ ' ' :: (intStr ps.best_streak ++ ' ' :: (intStr ps.current_streak ++ ' ' :: (intStr ps.biggest_win ++ ' ' :: (intStr ps.total_games ++ ' ' :: (intStr ps.blackjacks ++ ([] : List Char)))))))) (ws_head_takeWhile_digit _)
    have h3 := readInt_spec ps.ties (' ' :: (intStr ps.best_streak ++ ' ' :: (intStr ps.current_streak ++ ' ' :: (intStr ps.biggest_win ++ ' ' :: (intStr ps.total_games ++ ' ' :: (intStr ps.blackjacks ++ ([] : List Char))))))) (ws_head_takeWhile_digit _)
    have h4 := readInt_spec ps.best_streak (' ' :: (intStr ps.current_streak ++ ' ' :: (intStr ps.biggest_win ++ ' ' :: (intStr ps.total_games ++ ' ' :: (intStr ps.blackjacks ++ ([] : List Char)))))) (ws_head_takeWhile_digit _)
    have h5 := readInt_spec ps.current_streak (' ' :: (intStr ps.biggest_win ++ ' ' :: (intStr ps.total_games ++ ' ' :: (intStr ps.blackjacks ++ ([] : List Char))))) (ws_head_takeWhile_digit _)
    have h6 := readInt_spec ps.biggest_win (' ' :: (intStr ps.total_games ++ ' ' :: (intStr ps.blackjacks ++ ([] : List Char)))) (ws_head_takeWhile_digit _)
    have h7 := readInt_spec ps.total_games (' ' :: (intStr ps.blackjacks ++ ([] : List Char))) (ws_head_takeWhile_digit _)
    have h8 := readInt_spec ps.blackjacks ([] : List Char) (by rfl)
    rw [hline]
    unfold parseRecord
    rw [h0]
    simp only [Option.bind_eq_bind, Option.some_bind]
    rw [h1]
    simp only [Option.bind_eq_bind, Option.some_bind]
    rw [h2]
    simp only [Option.bind_eq_bind, Option.some_bind]
    rw [h3]
    simp only [Option.bind_eq_bind, Option.some_bind]
    rw [h4]
    simp only [Option.bind_eq_bind, Option.some_bind]
    rw [h5]
    simp only [Option.bind_eq_bind, Option.some_bind]
    rw [h6]
    simp only [Option.bind_eq_bind, Option.some_bind]
    rw [h7]
    simp only [Option.bind_eq_bind, Option.some_bind]
    rw [h8]
    simp only [Option.bind_eq_bind, Option.some_bind]
    simp only [List.dropWhile_nil, List.isEmpty_nil, if_true, hunesc, Option.some.injEq,
      Prod.mk.injEq, true_and]
    rw [← hach_nil]
  · have hach_ne : ps.achievements ≠ [] := by
      cases hach : ps.achievements with
      | nil => rw [hach] at hachE; simp at hachE
      | cons a as => simp
    obtain ⟨a0, ls0, hach⟩ := List.exists_cons_of_ne_nil hach_ne
    have ha0ne : a0 ≠ [] := by
      have := (ha.2 a0 (by rw [hach]; exact List.mem_cons_self _ _)).1
      exact this
    obtain ⟨c0, a0', ha0⟩ := List.exists_cons_of_ne_nil ha0ne
    have hc0ws : isWsChar c0 = false := by
      have := (ha.2 a0 (by rw [hach]; exact List.mem_cons_self _ _)).2 c0
        (by rw [ha0]; exact List.mem_cons_self _ _)
      exact this.2
    obtain ⟨jtail, hjoin⟩ := joinAch_cons_head c0 a0' ls0
    have hjoin' : joinAch ps.achievements = c0 :: jtail := by
      rw [hach, ha0]
      exact hjoin
    have hline : saveRecord (name, ps) =
        escapeName name ++ (' ' :: (intStr ps.wins ++ ' ' :: (intStr ps.losses ++ ' ' :: (intStr ps.ties ++ ' ' :: (intStr ps.best_streak ++ ' ' :: (intStr ps.current_streak ++ ' ' :: (intStr ps.biggest_win ++ ' ' :: (intStr ps.total_games ++ ' ' :: (intStr ps.blackjacks ++ (' ' :: joinAch ps.achievements)))))))))) := by
      simp only [saveRecord, hachE, Bool.false_eq_true, if_false]
      simp [List.append_assoc]
    have h0 := readToken_spec (escapeName name) (' ' :: (intStr ps.wins ++ ' ' :: (intStr ps.losses ++ ' ' :: (intStr ps.ties ++ ' ' :: (intStr ps.best_streak ++ ' ' :: (intStr ps.current_streak ++ ' ' :: (intStr ps.biggest_win ++ ' ' :: (intStr ps.total_games ++ ' ' :: (intStr ps.blackjacks ++ (' ' :: joinAch ps.achievements)))))))))) hesc_ne hesc_ws
      (ws_head_takeWhile_tok _)
    have h1 := readInt_spec ps.wins (' ' :: (intStr ps.losses ++ ' ' :: (intStr ps.ties ++ ' ' :: (intStr ps.best_streak ++ ' ' :: (intStr ps.current_streak ++ ' ' :: (intStr ps.biggest_win ++ ' ' :: (intStr ps.total_games ++ ' ' :: (intStr ps.blackjacks ++ (' ' :: joinAch ps.achievements))))))))) (ws_head_takeWhile_digit _)
    have h2 := readInt_spec ps.losses (' ' :: (intStr ps.ties ++ ' ' :: (intStr ps.best_streak ++ ' ' :: (intStr ps.current_streak ++ ' ' :: (intStr ps.biggest_win ++ ' ' :: (intStr ps.total_games ++ ' ' :: (intStr ps.blackjacks ++ (' ' :: joinAch ps.achievements)))))))) (ws_head_takeWhile_digit _)
    have h3 := readInt_spec ps.ties (' ' :: (intStr ps.best_streak ++ ' ' :: (intStr ps.current_streak ++ ' ' :: (intStr ps.biggest_win ++ ' ' :: (intStr ps.total_games ++ ' ' :: (intStr ps.blackjacks ++ (' ' :: joinAch ps.achievements))))))) (ws_head_takeWhile_digit _)
    have h4 := readInt_spec ps.best_streak (' ' :: (intStr ps.current_streak ++ ' ' :: (intStr ps.biggest_win ++ ' ' :: (intStr ps.total_games ++ ' ' :: (intStr ps.blackjacks ++ (' ' :: joinAch ps.achievements)))))) (ws_head_takeWhile_digit _)
    have h5 := readInt_spec ps.current_streak (' ' :: (intStr ps.biggest_win ++ ' ' :: (intStr ps.total_games ++ ' ' :: (intStr ps.blackjacks ++ (' ' :: joinAch ps.achievements))))) (ws_head_takeWhile_digit _)
    have h6 := readInt_spec ps.biggest_win (' ' :: (intStr ps.total_games ++ ' ' :: (intStr ps.blackjacks ++ (' ' :: joinAch ps.achievements)))) (ws_head_takeWhile_digit _)
    have h7 := readInt_spec ps.total_games (' ' :: (intStr ps.blackjacks ++ (' ' :: joinAch ps.achievements))) (ws_head_takeWhile_digit _)
    have h8 := readInt_spec ps.blackjacks (' ' :: joinAch ps.achievements)
      (ws_head_takeWhile_digit _)
    rw [hline]
    unfold parseRecord
    rw [h0]
    simp only [Option.bind_eq_bind, Option.some_bind]
    rw [h1]
    simp only [Option.bind_eq_bind, Option.some_bind]
    rw [h2]
    simp only [Option.bind_eq_bind, Option.some_bind]
    rw [h3]
    simp only [Option.bind_eq_bind, Option.some_bind]
    rw [h4]
    simp only [Option.bind_eq_bind, Option.some_bind]
    rw [h5]
    simp only [Option.bind_eq_bind, Option.some_bind]
    rw [h6]
    simp only [Option.bind_eq_bind, Option.some_bind]
    rw [h7]
    simp only [Option.bind_eq_bind, Option.some_bind]
    rw [h8]
    simp only [Option.bind_eq_bind, Option.some_bind]
    have hdrop1 : (' ' :: joinAch ps.achievements).dropWhile isWsChar =
        joinAch ps.achievements := by
      rw [List.dropWhile_cons]
      simp only [show isWsChar ' ' = true from by decide, if_true]
      rw [hjoin']
      exact dropWhile_cons_false c0 jtail hc0ws
    rw [hdrop1]
    have hjne : (joinAch ps.achievements).isEmpty = false := by
      rw [hjoin']
      rfl
    rw [hjne]
    simp only [Bool.false_eq_true, if_false]
    rw [split_achievements_joinAch ps.achievements hach_ne ha, hunesc]

/-- C9 counterexample: a record whose identity contains an underscore.
Saving escapes spaces to underscores and loading unescapes underscores
to spaces, so the identity "a_b" comes back as "a b": the reloaded set
is not field-for-field identical under the same identities. -/
theorem claim_C9_counterexample :
    loadRecords (saveStats [(['a', '_', 'b'], {})]) ≠
      [(['a', '_', 'b'], ({} : PlayerStats))] := by decide

/-- C9 as amended: saving a PlayerRecord set with `save_stats_to_file`
and reloading it with `load_stats_from_file` yields exactly the same
keyed records — every counter field and the achievement set identical,
an empty achievement set serialized as no trailing field and
deserialized back to empty — provided each identity is non-empty,
contains no underscore (the space-escaping placeholder) and no
whitespace other than plain spaces, and each achievement identifier is
non-empty with no comma and no whitespace (as every identifier in the
program's achievement catalog is). -/
theorem claim_C9 (m : List (List Char × PlayerStats)) (h : validRecords m) :
    loadRecords (saveStats m) = m := by
  induction m with
  | nil => rfl
  | cons r rest ih =>
    obtain ⟨name, ps⟩ := r
    have hr := h (name, ps) (List.mem_cons_self _ _)
    have ihh := ih (fun q hq => h q (List.mem_cons_of_mem _ hq))
    simp only [saveStats, List.map_cons, loadRecords, List.filterMap_cons,
      parseRecord_saveRecord name ps hr.1 hr.2]
    simp only [loadRecords, saveStats] at ihh
    rw [ihh]

theorem claim_C9_witness :
    loadRecords (saveStats [(['Y', 'o', 'u'], {})]) =
      [(['Y', 'o', 'u'], ({} : PlayerStats))] :=
  claim_C9 [(['Y', 'o', 'u'], {})] (by
    intro r hr
    rcases List.mem_singleton.mp hr with rfl
    exact ⟨⟨by decide, by decide⟩, List.Pairwise.nil, by simp⟩)

end Blackjack
